import Mathlib

set_option maxHeartbeats 1000000

/-
Verification of the script `fetch_namespace_modules.py`.

The development shallowly embeds the script's pure logic:

* `substitute_placeholders` embeds the template renderer, i.e. the Python
  function of the same name, which performs `re.sub` with the pattern
  `\{\{\{(\w+)\}\}\}` and a replacer that looks the captured key up in a
  substitution map and falls back to the whole match.  The regex engine's
  left-to-right scan with non-overlapping matches is embedded as a fuel
  driven scanner over the character list of the template; fuel equal to the
  length of the input is always sufficient since every step consumes at
  least one character.  The character class `\w` is embedded as ASCII
  letters, digits and underscore.

* The JSON payload of `kda local` is embedded as the inductive `J`
  (numbers as integers; the script never inspects numbers).  Objects model
  Python dicts, so field names are assumed unique and lookup returns the
  unique binding.

* Filesystem effects are embedded as explicit state (`FSState`: existing
  directories and an association list of written files, newest binding
  first) together with an environment oracle (`FSOracle`) deciding which
  directory creations and file writes fail with an OS error.
  `os.makedirs(ns, exist_ok=True)` succeeds without touching the state when
  the directory already exists, and always fails on the empty path (Python
  raises `FileNotFoundError` for `os.makedirs("")`, `exist_ok`
  notwithstanding).

* Python control flow is embedded explicitly: `sys.exit(1)` paths produce
  `Status.fatal`, uncaught exceptions (`TypeError` when indexing a
  non-dict entry, `AttributeError` when calling `.get` on a non-dict
  module, or using a truthy non-string name) produce `Status.crashed`;
  both terminate the process with exit code 1.  Warnings and file
  creations are recorded as `Event`s in program order.
-/

namespace KdaFetch

/-- The ASCII fragment of the regex class `\w`: ASCII letters, digits and
underscore.  Python's `\w` on `str` is Unicode-aware (any Unicode
alphanumeric character plus the underscore), so the scanner below is
parameterized by the word-character classifier `w`; the theorems hold for
every classifier under which the braces are not word characters, which is
true of `\w` (braces are punctuation).  `asciiWord` agrees with `\w` on
code points below 128 and instantiates the concrete witnesses and
counterexamples, whose inputs are pure ASCII. -/
def asciiWord (c : Char) : Bool := c.isAlpha || c.isDigit || c == '_'

/-- Recognize three closing braces at the head of the input and return the
remainder, i.e. the `\}\}\}` part of the placeholder pattern. -/
def matchClose : List Char → Option (List Char)
  | d1 :: d2 :: d3 :: tail =>
    if d1 = '}' ∧ d2 = '}' ∧ d3 = '}' then some tail else none
  | _ => none

/-- Try to match the regex `\{\{\{(\w+)\}\}\}` at the head of the input,
returning the captured key and the input after the match.  The greedy
`\w+` needs no backtracking here: a shorter capture would have to be
followed by `}`, but the character given back is a word character. -/
def matchPH (w : Char → Bool) : List Char → Option (String × List Char)
  | c1 :: c2 :: c3 :: rest =>
    if c1 = '{' ∧ c2 = '{' ∧ c3 = '{' then
      if rest.takeWhile w = [] then none
      else
        match matchClose (rest.dropWhile w) with
        | some tail => some (String.mk (rest.takeWhile w), tail)
        | none => none
    else none
  | _ => none

/-- Lookup in the substitution map (`substitutions.get(key)` on a Python
dict, embedded as an association list with unique keys). -/
def lookupSub : List (String × String) → String → Option String
  | [], _ => none
  | (k, v) :: rest, key => if key = k then some v else lookupSub rest key

/-- Character list of the literal placeholder `{{{k}}}`. -/
def phTok (k : String) : List Char :=
  '{' :: '{' :: '{' :: (k.data ++ ['}', '}', '}'])

/-- Replacement chosen by the Python replacer: the mapped value if the key
is mapped, the whole match `{{{key}}}` unchanged otherwise. -/
def replTok (subs : List (String × String)) (k : String) : List Char :=
  match lookupSub subs k with
  | some v => v.data
  | none => phTok k

/-- Fuel-driven left-to-right scan of `re.sub`: at each position try the
pattern; on a match emit the replacement and continue after the match
(the replacement is not rescanned), otherwise emit the character and
advance by one.  Fuel bounds the number of steps; `length` fuel is always
enough. -/
def substAux (w : Char → Bool) (subs : List (String × String)) :
    Nat → List Char → List Char
  | 0, l => l
  | _ + 1, [] => []
  | fuel + 1, c :: cs =>
    match matchPH w (c :: cs) with
    | some (key, tail) => replTok subs key ++ substAux w subs fuel tail
    | none => c :: substAux w subs fuel cs

/-- The scanner at character-list level with sufficient fuel. -/
def substChars (w : Char → Bool) (subs : List (String × String))
    (l : List Char) : List Char :=
  substAux w subs l.length l

/-- Embedding of the Python function `substitute_placeholders`. -/
def substitute_placeholders (w : Char → Bool) (template_content : String)
    (substitutions : List (String × String)) : String :=
  String.mk (substChars w substitutions template_content.data)

/-- Decide whether any position of the input starts a placeholder match. -/
def hasPH (w : Char → Bool) : List Char → Bool
  | [] => false
  | c :: cs => (matchPH w (c :: cs)).isSome || hasPH w cs

/-- A key the regex can capture: non-empty and made of word characters. -/
def validKey (w : Char → Bool) (k : String) : Bool :=
  !k.data.isEmpty && k.data.all w

/-- Substitution map with one key removed; used to state that a key is
never looked up. -/
def eraseKey (m : List (String × String)) (k : String) : List (String × String) :=
  m.filter (fun p => p.1 ≠ k)

/-- JSON values as produced by `json.loads` (numbers as integers: the
script never inspects numbers, so their exact type is irrelevant).
`obj` models a Python dict, whose keys are unique. -/
inductive J where
  | null
  | bool (b : Bool)
  | str (s : String)
  | num (n : Int)
  | arr (elems : List J)
  | obj (fields : List (String × J))

/-- Python truthiness of a JSON value, as used by `if not name or not code`. -/
def truthy : J → Bool
  | J.null => false
  | J.bool b => b
  | J.str s => !s.data.isEmpty
  | J.num n => n != 0
  | J.arr xs => !xs.isEmpty
  | J.obj fs => !fs.isEmpty

/-- Lookup of a field in an object's field list (dict lookup). -/
def lookupField : List (String × J) → String → Option J
  | [], _ => none
  | (k, v) :: rest, key => if k = key then some v else lookupField rest key

/-- Top-level key lookup, modelling `network_url in data` followed by
`data[network_url]`.  A non-dict top level never yields the key (for a
list or string that does contain the key, Python crashes right after the
membership test with a `TypeError`, which also aborts with exit code 1,
so the observable behaviour agrees). -/
def getField : J → String → Option J
  | J.obj fs, k => lookupField fs k
  | _, _ => none

/-- Python exceptions relevant to the traversal: `KeyError` is caught by
the script, `TypeError`/`AttributeError` are not and crash the run. -/
inductive PyErr where
  | keyError
  | typeError
  | attrError
deriving DecidableEq

/-- Subscription `j[key]`: a missing key in a dict raises `KeyError`,
subscripting a non-dict by a string raises `TypeError`. -/
def index (j : J) (k : String) : Except PyErr J :=
  match j with
  | J.obj fs =>
    match lookupField fs k with
    | some v => Except.ok v
    | none => Except.error PyErr.keyError
  | _ => Except.error PyErr.typeError

/-- The fixed nested path `entry["body"]["result"]["data"]`. -/
def bodyResultData (entry : J) : Except PyErr J :=
  match index entry "body" with
  | Except.error e => Except.error e
  | Except.ok b =>
    match index b "result" with
    | Except.error e => Except.error e
    | Except.ok r => index r "data"

/-- Whether a JSON value is a sequence (`isinstance(x, list)`). -/
def isArr : J → Bool
  | J.arr _ => true
  | _ => false

/-- `name.rsplit(".", 1)`: split at the last dot. -/
def rsplitDot (n : String) : String × String :=
  ⟨String.mk ((n.data.reverse.dropWhile (fun c => c != '.')).tail.reverse),
   String.mk ((n.data.reverse.takeWhile (fun c => c != '.')).reverse)⟩

/-- Namespace and module (leaf) name derived from a module name: split on
the last dot; with no dot, the namespace is the whole name and the leaf
name is the default "KDA". -/
def splitName (n : String) : String × String :=
  if '.' ∈ n.data then rsplitDot n else (n, "KDA")

/-- POSIX `os.path.join(a, b)`: an absolute second component wins; an
empty or slash-terminated first component is not followed by an extra
separator. -/
def joinPath (a b : String) : String :=
  if b.data.head? = some '/' then b
  else if a = "" ∨ a.data.getLast? = some '/' then a ++ b
  else a ++ "/" ++ b

/-- Output path of a module: `os.path.join(namespace, leaf + ".pact")`. -/
def modulePath (ns leaf : String) : String := joinPath ns (leaf ++ ".pact")

/-- Directory part and final segment of a path, split at the last
separator (the directory part keeps the trailing separator).  Under
POSIX path resolution, two paths with the same directory part and
distinct separator-free final segments name distinct files, so equality
on raw path strings is not an over-approximation for such paths. -/
def splitPath (p : String) : String × String :=
  ⟨String.mk ((p.data.reverse.dropWhile (fun c => c != '/')).reverse),
   String.mk ((p.data.reverse.takeWhile (fun c => c != '/')).reverse)⟩

/-- Filesystem model: directories that exist and written files (newest
binding first; a later write to the same path shadows the earlier one,
i.e. overwrites it). -/
structure FSState where
  dirs : List String
  files : List (String × String)
deriving DecidableEq

/-- Environment-determined I/O failures (permissions, disk errors, ...):
which directory creations and which file writes raise an `OSError`. -/
structure FSOracle where
  mkdirFails : String → Bool
  writeFails : String → Bool

/-- Oracle of a fault-free environment. -/
def orc0 : FSOracle := ⟨fun _ => false, fun _ => false⟩

/-- Observable events of a run: stderr warnings and errors, and file
creations/removals, in program order. -/
inductive Event where
  | substWritten (content : String)
  | warnMissingKey
  | warnDataNotList
  | warnModuleFields
  | errMkdir (ns : String)
  | errMkdirNonStr
  | errWrite (path : String)
  | created (path : String) (content : String)
  | removedFile (path : String)
  | warnCleanup
deriving DecidableEq

/-- Result of processing a list of entries or modules: final filesystem
state, events, and whether an uncaught exception terminated the run. -/
structure StepRes where
  st : FSState
  evs : List Event
  crashed : Bool
deriving DecidableEq

/-- `os.makedirs(ns, exist_ok=True)`: succeeds without change when the
directory exists (`exist_ok`); always fails on the empty path (Python
raises `FileNotFoundError` there); otherwise fails when the environment
makes it fail, else records the new directory. -/
def makedirs (orc : FSOracle) (st : FSState) (ns : String) : Option FSState :=
  if st.dirs.contains ns then some st
  else if ns = "" ∨ orc.mkdirFails ns = true then none
  else some ⟨ns :: st.dirs, st.files⟩

/-- `open(path, "w")` followed by `write`: fails when the environment
makes it fail, else records the file, shadowing (overwriting) any
earlier write to the same path.  Files are keyed by the raw path string
passed to `open`; distinct raw strings can still name one POSIX file
(e.g. "ns/a//b.pact" and "ns/a/b.pact"), so file-distinctness claims are
stated via `splitPath` on paths whose final segment is separator-free,
where raw-string distinctness coincides with file distinctness. -/
def writeFile (orc : FSOracle) (st : FSState) (path content : String) :
    Option FSState :=
  if orc.writeFails path = true then none
  else some ⟨st.dirs, (path, content) :: st.files⟩

/-- Association lookup among written files (newest write wins). -/
def lookupFilesAux : List (String × String) → String → Option String
  | [], _ => none
  | (q, c) :: rest, p => if q = p then some c else lookupFilesAux rest p

/-- Content of the file at a path (newest write wins). -/
def lookupFile (st : FSState) (p : String) : Option String :=
  lookupFilesAux st.files p

/-- Field of a module dict as the script reads it: `module.get(key)`
returns `None` for a missing key. -/
def moduleField (flds : List (String × J)) (k : String) : J :=
  (lookupField flds k).getD J.null

/-- Processing of one module element (the inner loop body of
`parse_and_create_files`): skip with a warning when `name` or `code` is
falsy; derive namespace/leaf from the name; directory-creation failure
and write failure are caught and reported, skipping only this module.  A
non-dict module crashes at `module.get` (`AttributeError`).  A truthy
non-string name: for a list or dict, `"." in name` is a membership test
that succeeds — when it holds, `name.rsplit` raises an uncaught
`AttributeError` (crash); when it does not, `os.makedirs(name)` raises a
`TypeError` that the surrounding `except Exception` catches, so the
module is skipped with an error report and processing continues; for a
number or `True`, `"." in name` itself raises an uncaught `TypeError`
(crash).  A truthy non-string code raises `TypeError` inside `f.write`,
which the surrounding `except` catches like a write failure. -/
def processModule (orc : FSOracle) (st : FSState) (mdl : J) : StepRes :=
  match mdl with
  | J.obj flds =>
    if truthy (moduleField flds "name") && truthy (moduleField flds "code") then
      match moduleField flds "name" with
      | J.str n =>
        match makedirs orc st (splitName n).1 with
        | none => ⟨st, [Event.errMkdir (splitName n).1], false⟩
        | some st1 =>
          match moduleField flds "code" with
          | J.str c =>
            match writeFile orc st1 (modulePath (splitName n).1 (splitName n).2) c with
            | none => ⟨st1, [Event.errWrite (modulePath (splitName n).1 (splitName n).2)], false⟩
            | some st2 =>
              ⟨st2, [Event.created (modulePath (splitName n).1 (splitName n).2) c], false⟩
          | _ => ⟨st1, [Event.errWrite (modulePath (splitName n).1 (splitName n).2)], false⟩
      | J.arr xs =>
        if xs.any (fun e => match e with | J.str s => s == "." | _ => false) then
          ⟨st, [], true⟩
        else ⟨st, [Event.errMkdirNonStr], false⟩
      | J.obj fs2 =>
        if fs2.any (fun p => p.1 == ".") then ⟨st, [], true⟩
        else ⟨st, [Event.errMkdirNonStr], false⟩
      | _ => ⟨st, [], true⟩
    else ⟨st, [Event.warnModuleFields], false⟩
  | _ => ⟨st, [], true⟩

/-- Processing of the list of modules of one entry, stopping at an
uncaught exception. -/
def processModules (orc : FSOracle) : FSState → List J → StepRes
  | st, [] => ⟨st, [], false⟩
  | st, mdl :: rest =>
    if (processModule orc st mdl).crashed then processModule orc st mdl
    else
      ⟨(processModules orc (processModule orc st mdl).st rest).st,
       (processModule orc st mdl).evs
         ++ (processModules orc (processModule orc st mdl).st rest).evs,
       (processModules orc (processModule orc st mdl).st rest).crashed⟩

/-- Processing of one entry of the sequence under the network URL:
a `KeyError` on the nested path is caught and the entry skipped with a
warning; a non-list `data` value skips the entry with a warning; a
`TypeError` (non-dict on the path) is uncaught and crashes. -/
def processEntry (orc : FSOracle) (st : FSState) (entry : J) : StepRes :=
  match bodyResultData entry with
  | Except.error PyErr.keyError => ⟨st, [Event.warnMissingKey], false⟩
  | Except.error _ => ⟨st, [], true⟩
  | Except.ok (J.arr mods) => processModules orc st mods
  | Except.ok _ => ⟨st, [Event.warnDataNotList], false⟩

/-- Processing of all entries, stopping at an uncaught exception. -/
def processEntries (orc : FSOracle) : FSState → List J → StepRes
  | st, [] => ⟨st, [], false⟩
  | st, e :: rest =>
    if (processEntry orc st e).crashed then processEntry orc st e
    else
      ⟨(processEntries orc (processEntry orc st e).st rest).st,
       (processEntry orc st e).evs
         ++ (processEntries orc (processEntry orc st e).st rest).evs,
       (processEntries orc (processEntry orc st e).st rest).crashed⟩

/-- A module dict failing the script's field validation: `name` or `code`
missing, or bound to the empty string. -/
def badFields (flds : List (String × J)) : Prop :=
  (lookupField flds "name" = none ∨ lookupField flds "name" = some (J.str "")) ∨
  (lookupField flds "code" = none ∨ lookupField flds "code" = some (J.str ""))

/-- Process status: normal completion, `sys.exit(1)`, or an uncaught
exception.  The latter two exit the process with code 1. -/
inductive Status where
  | ok
  | fatal
  | crashed
deriving DecidableEq

/-- Result of a whole run: final filesystem state, events, status. -/
structure RunRes where
  st : FSState
  evs : List Event
  status : Status
deriving DecidableEq

/-- Process exit code determined by the status. -/
def RunRes.exit (r : RunRes) : Nat :=
  match r.status with
  | Status.ok => 0
  | _ => 1

/-- Embedding of the Python function `parse_and_create_files`.  The JSON
text has already been parsed: `none` stands for a `json.JSONDecodeError`
(fatal).  A missing network-URL key and a non-list value under it are
fatal (`sys.exit(1)`); otherwise the entries are processed in order. -/
def parse_and_create_files (orc : FSOracle) (st : FSState) (parsed : Option J)
    (network_url : String) : RunRes :=
  match parsed with
  | none => ⟨st, [], Status.fatal⟩
  | some data =>
    match getField data network_url with
    | none => ⟨st, [], Status.fatal⟩
    | some (J.arr entries) =>
      let r := processEntries orc st entries
      ⟨r.st, r.evs, if r.crashed then Status.crashed else Status.ok⟩
    | some _ => ⟨st, [], Status.fatal⟩

/-- Environment of one run of `main`: command-line arguments, outcomes of
the filesystem probes, of the two `kda` tool invocations, of parsing the
tool's stdout, and of the two temp-file removals. -/
structure Env where
  templateExists : Bool
  templateContent : Option String
  substWriteOk : Bool
  chain : String
  nsArg : String
  networkUrl : String
  genExitCode : Nat
  genFileCreated : Bool
  localExitCode : Nat
  localParsed : Option J
  removeJsonOk : Bool
  removeYamlOk : Bool

/-- Path of the generated temporary JSON file (relative to the working
directory). -/
def jsonTempPath : String := "temp_fetch_module_code.json"

/-- Path of the substituted template file (relative to the working
directory). -/
def yamlTempPath : String := "substituted_config.ktpl"

/-- Cleanup at the end of `main`: `os.remove(json_file)` then
`os.remove(substituted_yaml_path)` inside a single `try`, so a failure of
the first removal skips the second and produces exactly one warning. -/
def cleanupEvents (env : Env) : List Event :=
  if env.removeJsonOk = false then [Event.warnCleanup]
  else if env.removeYamlOk = false then
    [Event.removedFile jsonTempPath, Event.warnCleanup]
  else [Event.removedFile jsonTempPath, Event.removedFile yamlTempPath]

/-- Embedding of `main`: template existence check, template read,
placeholder substitution, write of the substituted file, `kda gen`
(fatal on nonzero exit or missing output file), `kda local` (fatal on
nonzero exit), `parse_and_create_files`, and cleanup of the two temp
files (reached only on normal completion; `sys.exit` and uncaught
exceptions skip it). -/
def mainRun (w : Char → Bool) (orc : FSOracle) (env : Env) (st : FSState) :
    RunRes :=
  if env.templateExists = false then ⟨st, [], Status.fatal⟩
  else
    match env.templateContent with
    | none => ⟨st, [], Status.fatal⟩
    | some tpl =>
      if env.substWriteOk = false then ⟨st, [], Status.fatal⟩
      else
        let evs0 := [Event.substWritten (substitute_placeholders w tpl
          [("chain", env.chain), ("namespace", env.nsArg)])]
        if env.genExitCode ≠ 0 then ⟨st, evs0, Status.fatal⟩
        else if env.genFileCreated = false then ⟨st, evs0, Status.fatal⟩
        else if env.localExitCode ≠ 0 then ⟨st, evs0, Status.fatal⟩
        else
          let r := parse_and_create_files orc st env.localParsed env.networkUrl
          match r.status with
          | Status.ok => ⟨r.st, evs0 ++ r.evs ++ cleanupEvents env, Status.ok⟩
          | Status.fatal => ⟨r.st, evs0 ++ r.evs, Status.fatal⟩
          | Status.crashed => ⟨r.st, evs0 ++ r.evs, Status.crashed⟩

/-- All the fatal gates of `main` before `parse_and_create_files`
passed. -/
def allOk (env : Env) : Prop :=
  env.templateExists = true ∧ env.templateContent ≠ none ∧
  env.substWriteOk = true ∧ env.genExitCode = 0 ∧
  env.genFileCreated = true ∧ env.localExitCode = 0

/-- A module dict with just the two fields the script reads. -/
def mkModule (n c : String) : J := J.obj [("name", J.str n), ("code", J.str c)]

end KdaFetch

namespace KdaFetch

theorem takeWhile_app_all (p : Char → Bool) (a x : List Char)
    (h : ∀ c ∈ a, p c = true) :
    (a ++ x).takeWhile p = a ++ x.takeWhile p := by
  induction a with
  | nil => rfl
  | cons b bs ih =>
    have hb : p b = true := h b (by simp)
    simp only [List.cons_append, List.takeWhile_cons, hb, if_pos]
    rw [ih (fun c hc => h c (by simp [hc]))]

theorem dropWhile_app_all (p : Char → Bool) (a x : List Char)
    (h : ∀ c ∈ a, p c = true) :
    (a ++ x).dropWhile p = x.dropWhile p := by
  induction a with
  | nil => rfl
  | cons b bs ih =>
    have hb : p b = true := h b (by simp)
    simp only [List.cons_append, List.dropWhile_cons, hb, if_pos]
    exact ih (fun c hc => h c (by simp [hc]))

theorem takeWhile_app_not (p : Char → Bool) (a : List Char) (c : Char)
    (x : List Char) (hc : p c = false) :
    (a ++ c :: x).takeWhile p = a.takeWhile p := by
  induction a with
  | nil => simp [List.takeWhile_cons, hc]
  | cons b bs ih =>
    by_cases hb : p b = true
    · simp only [List.cons_append, List.takeWhile_cons, hb, if_pos]
      rw [ih]
    · have hb' : p b = false := by
        cases hpb : p b with
        | false => rfl
        | true => exact absurd hpb hb
      simp [List.takeWhile_cons, hb']

theorem dropWhile_app_not (p : Char → Bool) (a : List Char) (c : Char)
    (x : List Char) (hc : p c = false) :
    (a ++ c :: x).dropWhile p = a.dropWhile p ++ c :: x := by
  induction a with
  | nil => simp [List.dropWhile_cons, hc]
  | cons b bs ih =>
    by_cases hb : p b = true
    · simp only [List.cons_append, List.dropWhile_cons, hb, if_pos]
      exact ih
    · have hb' : p b = false := by
        cases hpb : p b with
        | false => rfl
        | true => exact absurd hpb hb
      simp [List.dropWhile_cons, hb']

theorem mem_takeWhile {p : Char → Bool} :
    ∀ {l : List Char} {c : Char}, c ∈ l.takeWhile p → p c = true := by
  intro l
  induction l with
  | nil => intro c hc; simp [List.takeWhile] at hc
  | cons b bs ih =>
    intro c hc
    rw [List.takeWhile_cons] at hc
    by_cases hb : p b = true
    · rw [if_pos hb] at hc
      rcases List.mem_cons.mp hc with h | h
      · exact h ▸ hb
      · exact ih h
    · rw [if_neg hb] at hc
      simp at hc

theorem string_data_inj {a b : String} (h : a.data = b.data) : a = b := by
  cases a
  cases b
  exact congrArg String.mk h

theorem string_mk_data (s : String) : String.mk s.data = s := by
  cases s
  rfl

theorem string_data_app (a b : String) : (a ++ b).data = a.data ++ b.data := rfl

theorem matchPH_guard_neg {c1 c2 c3 : Char} (rest : List Char)
    (hg : ¬ (c1 = '{' ∧ c2 = '{' ∧ c3 = '{')) :
    matchPH w (c1 :: c2 :: c3 :: rest) = none := by
  simp only [matchPH]
  rw [if_neg hg]

theorem matchPH_head {c : Char} (l : List Char) (hc : c ≠ '{') :
    matchPH w (c :: l) = none := by
  match l with
  | [] => rfl
  | [a] => rfl
  | a :: b :: r => exact matchPH_guard_neg r (fun h => hc h.1)

theorem matchPH_ws_nil {c1 c2 c3 : Char} {rest : List Char}
    (h : rest.takeWhile w = []) :
    matchPH w (c1 :: c2 :: c3 :: rest) = none := by
  simp only [matchPH, h]
  split <;> rfl

theorem matchClose_head {c : Char} (l : List Char) (hc : c ≠ '}') :
    matchClose (c :: l) = none := by
  match l with
  | [] => rfl
  | [a] => rfl
  | a :: b :: r =>
    simp only [matchClose]
    rw [if_neg]
    intro h
    exact hc h.1

theorem matchClose_eq_some : ∀ {d t : List Char}, matchClose d = some t →
    d = '}' :: '}' :: '}' :: t := by
  intro d t h
  match d with
  | [] => exact absurd h (by simp [matchClose])
  | [a] => exact absurd h (by simp [matchClose])
  | [a, b] => exact absurd h (by simp [matchClose])
  | a :: b :: c :: r =>
    simp only [matchClose] at h
    split at h
    · next hg =>
      obtain ⟨h1, h2, h3⟩ := hg
      obtain rfl : r = t := Option.some.inj h
      rw [h1, h2, h3]
    · exact absurd h (by simp)

theorem matchClose_app {d : List Char} (h : matchClose d = none) (u : List Char) :
    matchClose (d ++ '{' :: u) = none := by
  match d with
  | [] => exact matchClose_head _ (by decide)
  | [a] =>
    match u with
    | [] => rfl
    | b :: u2 =>
      show matchClose (a :: '{' :: b :: u2) = none
      simp only [matchClose]
      rw [if_neg]
      intro hg
      exact absurd hg.2.1 (by decide)
  | [a, b] =>
    show matchClose (a :: b :: '{' :: u) = none
    simp only [matchClose]
    rw [if_neg]
    intro hg
    exact absurd hg.2.2 (by decide)
  | a :: b :: c :: r =>
    show matchClose (a :: b :: c :: (r ++ '{' :: u)) = none
    simp only [matchClose] at h ⊢
    split at h
    · exact absurd h (by simp)
    · next hg => rw [if_neg hg]

theorem matchPH_app {s : List Char} (hwb : w '{' = false) (hs : s ≠ [])
    (h : matchPH w s = none) (t : List Char) :
    matchPH w (s ++ '{' :: '{' :: '{' :: t) = none := by
  match s with
  | [] => exact absurd rfl hs
  | [c] =>
    show matchPH w (c :: '{' :: '{' :: '{' :: t) = none
    exact matchPH_ws_nil (by rw [List.takeWhile_cons_of_neg (by simp [hwb])])
  | [c1, c2] =>
    show matchPH w (c1 :: c2 :: '{' :: '{' :: '{' :: t) = none
    exact matchPH_ws_nil (by rw [List.takeWhile_cons_of_neg (by simp [hwb])])
  | c1 :: c2 :: c3 :: r =>
    show matchPH w (c1 :: c2 :: c3 :: (r ++ '{' :: '{' :: '{' :: t)) = none
    by_cases hg : c1 = '{' ∧ c2 = '{' ∧ c3 = '{'
    · have htw : (r ++ '{' :: '{' :: '{' :: t).takeWhile w
          = r.takeWhile w :=
        takeWhile_app_not _ _ _ _ hwb
    -- analyze why the head of the original input failed to match
      simp only [matchPH, if_pos hg] at h
      by_cases hw : r.takeWhile w = []
      · exact matchPH_ws_nil (htw.trans hw)
      · rw [if_neg hw] at h
        have hmc : matchClose (r.dropWhile w) = none := by
          cases hmc : matchClose (r.dropWhile w) with
          | none => rfl
          | some tail => rw [hmc] at h; exact absurd h (by simp)
        have hdw : (r ++ '{' :: '{' :: '{' :: t).dropWhile w
            = r.dropWhile w ++ '{' :: '{' :: '{' :: t :=
          dropWhile_app_not _ _ _ _ hwb
        simp only [matchPH, if_pos hg, htw, hdw]
        rw [if_neg hw]
        rw [matchClose_app hmc]
    · exact matchPH_guard_neg _ hg

theorem matchPH_ph {k : String} (hwc : w '}' = false)
    (hk : validKey w k = true) (rest : List Char) :
    matchPH w (phTok k ++ rest) = some (k, rest) := by
  have hk2 := (Bool.and_eq_true _ _).mp hk
  have hword : ∀ c ∈ k.data, w c = true :=
    fun c hc => List.all_eq_true.mp hk2.2 c hc
  have hne : k.data ≠ [] := by
    intro hnil
    rw [hnil] at hk2
    exact absurd hk2.1 (by decide)
  show matchPH w ('{' :: '{' :: '{' :: ((k.data ++ ['}', '}', '}']) ++ rest)) = _
  rw [List.append_assoc]
  have ht : (k.data ++ ['}', '}', '}'] ++ rest).takeWhile w = k.data := by
    rw [List.append_assoc]
    rw [takeWhile_app_all _ _ _ hword]
    rw [show (['}', '}', '}'] ++ rest : List Char) = '}' :: '}' :: '}' :: rest from rfl]
    rw [List.takeWhile_cons_of_neg (by simp [hwc])]
    simp
  have hd : (k.data ++ ['}', '}', '}'] ++ rest).dropWhile w
      = '}' :: '}' :: '}' :: rest := by
    rw [List.append_assoc]
    rw [dropWhile_app_all _ _ _ hword]
    rw [show (['}', '}', '}'] ++ rest : List Char) = '}' :: '}' :: '}' :: rest from rfl]
    rw [List.dropWhile_cons_of_neg (by simp [hwc])]
  rw [← List.append_assoc]
  simp only [matchPH]
  rw [if_pos (show True ∧ True ∧ True from ⟨trivial, trivial, trivial⟩)]
  rw [ht, hd]
  rw [if_neg hne]
  show (match matchClose ('}' :: '}' :: '}' :: rest) with
    | some tail => some (String.mk k.data, tail)
    | none => none) = some (k, rest)
  have : matchClose ('}' :: '}' :: '}' :: rest) = some rest := by
    simp [matchClose]
  rw [this, string_mk_data]

theorem matchPH_some_elim {l : List Char} {k : String} {t : List Char}
    (h : matchPH w l = some (k, t)) :
    ∃ c1 c2 c3 rest, l = c1 :: c2 :: c3 :: rest ∧
      k.data = rest.takeWhile w ∧ k.data ≠ [] ∧
      rest.dropWhile w = '}' :: '}' :: '}' :: t := by
  match l with
  | [] => exact absurd h (by simp [matchPH])
  | [a] => exact absurd h (by simp [matchPH])
  | [a, b] => exact absurd h (by simp [matchPH])
  | a :: b :: c :: rest =>
    simp only [matchPH] at h
    split at h
    · split at h
      · exact absurd h (by simp)
      · next hw =>
        cases hmc : matchClose (rest.dropWhile w) with
        | none => rw [hmc] at h; exact absurd h (by simp)
        | some tail =>
          rw [hmc] at h
          have h1 := Option.some.inj h
          have hk : String.mk (rest.takeWhile w) = k := congrArg Prod.fst h1
          have ht2 : tail = t := congrArg Prod.snd h1
          refine ⟨a, b, c, rest, rfl, ?_, ?_, ?_⟩
          · rw [← hk]
          · rw [← hk]; exact hw
          · rw [← ht2]; exact matchClose_eq_some hmc
    · exact absurd h (by simp)

theorem matchPH_key {l : List Char} {k : String} {t : List Char}
    (h : matchPH w l = some (k, t)) : validKey w k = true := by
  obtain ⟨c1, c2, c3, rest, _, hk, hne, _⟩ := matchPH_some_elim h
  have h1 : k.data.isEmpty = false := by
    cases hd : k.data with
    | nil => exact absurd hd hne
    | cons x xs => rfl
  have h2 : k.data.all w = true :=
    List.all_eq_true.mpr (fun c hc => mem_takeWhile (hk ▸ hc))
  simp [validKey, h1, h2]

theorem matchPH_length {l : List Char} {k : String} {t : List Char}
    (h : matchPH w l = some (k, t)) : t.length + 6 ≤ l.length := by
  obtain ⟨c1, c2, c3, rest, hl, hk, hne, hd⟩ := matchPH_some_elim h
  subst hl
  have h0 : rest.takeWhile w ++ rest.dropWhile w = rest :=
    List.takeWhile_append_dropWhile w rest
  have h1 := congrArg List.length h0
  rw [List.length_append, hd] at h1
  simp only [List.length_cons] at h1 ⊢
  omega

theorem substAux_fuel (subs : List (String × String)) :
    ∀ (f1 f2 : Nat) (l : List Char), l.length ≤ f1 → l.length ≤ f2 →
      substAux w subs f1 l = substAux w subs f2 l := by
  intro f1
  induction f1 with
  | zero =>
    intro f2 l h1 _
    have hl : l = [] := List.eq_nil_of_length_eq_zero (Nat.le_zero.mp h1)
    subst hl
    cases f2 <;> rfl
  | succ n ih =>
    intro f2 l h1 h2
    cases l with
    | nil => cases f2 <;> rfl
    | cons c cs =>
      cases f2 with
      | zero => simp at h2
      | succ m =>
        cases hm : matchPH w (c :: cs) with
        | none =>
          simp only [substAux, hm]
          have hcs : cs.length ≤ n := by
            simp only [List.length_cons] at h1; omega
          have hcs2 : cs.length ≤ m := by
            simp only [List.length_cons] at h2; omega
          rw [ih m cs hcs hcs2]
        | some kt =>
          obtain ⟨key, tail⟩ := kt
          simp only [substAux, hm]
          have hlt := matchPH_length hm
          simp only [List.length_cons] at hlt h1 h2
          rw [ih m tail (by omega) (by omega)]

theorem substChars_nil (subs : List (String × String)) : substChars w subs [] = [] := rfl

theorem substChars_cons_none (subs : List (String × String)) {c : Char}
    {cs : List Char} (h : matchPH w (c :: cs) = none) :
    substChars w subs (c :: cs) = c :: substChars w subs cs := by
  show substAux w subs (c :: cs).length (c :: cs) = _
  simp only [List.length_cons, substAux, h]
  rfl

theorem substChars_some (subs : List (String × String)) {l : List Char}
    {k : String} {t : List Char} (h : matchPH w l = some (k, t)) :
    substChars w subs l = replTok subs k ++ substChars w subs t := by
  cases l with
  | nil => exact absurd h (by simp [matchPH])
  | cons c cs =>
    show substAux w subs (c :: cs).length (c :: cs) = _
    simp only [List.length_cons, substAux, h]
    have hlen := matchPH_length h
    simp only [List.length_cons] at hlen
    rw [substAux_fuel subs cs.length t.length t (by omega) (Nat.le_refl _)]
    rfl

theorem hasPH_split : ∀ (s1 s2 : List Char), hasPH w (s1 ++ s2) = false →
    matchPH w s2 = none := by
  intro s1
  induction s1 with
  | nil =>
    intro s2 h
    cases s2 with
    | nil => rfl
    | cons c cs =>
      simp only [List.nil_append, hasPH, Bool.or_eq_false_iff] at h
      exact Option.not_isSome_iff_eq_none.mp (by simp [h.1])
  | cons a s1x ih =>
    intro s2 h
    simp only [List.cons_append, hasPH, Bool.or_eq_false_iff] at h
    exact ih s2 h.2

theorem substChars_pass (subs : List (String × String)) (t : List Char) :
    ∀ l : List Char,
      (∀ s1 s2 : List Char, l = s1 ++ s2 → s2 ≠ [] → matchPH w (s2 ++ t) = none) →
      substChars w subs (l ++ t) = l ++ substChars w subs t := by
  intro l
  induction l with
  | nil => intro _; rfl
  | cons c cs ih =>
    intro h
    have hm : matchPH w (c :: (cs ++ t)) = none := h [] (c :: cs) rfl (by simp)
    rw [List.cons_append, substChars_cons_none subs hm]
    rw [ih (fun s1 s2 he hne => h (c :: s1) s2 (by rw [he]; rfl) hne)]
    rfl

theorem takeWhile_all_eq (p : Char → Bool) (a : List Char)
    (h : ∀ c ∈ a, p c = true) : a.takeWhile p = a := by
  have h2 := takeWhile_app_all p a [] h
  simpa using h2

theorem dropWhile_all_eq (p : Char → Bool) (a : List Char)
    (h : ∀ c ∈ a, p c = true) : a.dropWhile p = [] := by
  have h2 := dropWhile_app_all p a [] h
  simpa using h2

theorem dropWhile_first_false (p : Char → Bool) :
    ∀ l : List Char, (∃ c ∈ l, p c = false) →
      ∃ c0 r, l.dropWhile p = c0 :: r ∧ p c0 = false ∧ c0 ∈ l := by
  intro l
  induction l with
  | nil => intro h; obtain ⟨c, hc, _⟩ := h; simp at hc
  | cons a l2 ih =>
    intro h
    by_cases ha : p a = true
    · rw [List.dropWhile_cons_of_pos ha]
      have h2 : ∃ c ∈ l2, p c = false := by
        obtain ⟨c, hc, hpc⟩ := h
        rcases List.mem_cons.mp hc with rfl | hc2
        · rw [ha] at hpc; exact absurd hpc (by decide)
        · exact ⟨c, hc2, hpc⟩
      obtain ⟨c0, r, hd, hp, hm⟩ := ih h2
      exact ⟨c0, r, hd, hp, List.mem_cons_of_mem _ hm⟩
    · have ha2 : p a = false := by
        cases hpa : p a with
        | false => rfl
        | true => exact absurd hpa ha
      rw [List.dropWhile_cons_of_neg (by simp [ha2])]
      exact ⟨a, l2, rfl, ha2, List.mem_cons_self _ _⟩

theorem region_head_none {k : String} (hk1 : ∃ c ∈ k.data, w c = false)
    (hk2 : ∀ c ∈ k.data, c ≠ '{' ∧ c ≠ '}') (rest : List Char) :
    matchPH w (phTok k ++ rest) = none := by
  obtain ⟨c0, r, hdw, hpc0, hmem⟩ := dropWhile_first_false w k.data hk1
  have hsplit : k.data.takeWhile w ++ c0 :: r = k.data := by
    rw [← hdw]
    exact List.takeWhile_append_dropWhile w k.data
  show matchPH w ('{' :: '{' :: '{' :: ((k.data ++ ['}', '}', '}']) ++ rest)) = none
  have hX : (k.data ++ ['}', '}', '}']) ++ rest
      = k.data.takeWhile w ++ c0 :: ((r ++ ['}', '}', '}']) ++ rest) := by
    conv_lhs => rw [← hsplit]
    simp [List.append_assoc]
  rw [hX]
  have htw_all : ∀ c ∈ k.data.takeWhile w, w c = true :=
    fun c hc => mem_takeWhile hc
  have htw_tw : (k.data.takeWhile w).takeWhile w
      = k.data.takeWhile w := takeWhile_all_eq _ _ htw_all
  have h1 : (k.data.takeWhile w
        ++ c0 :: ((r ++ ['}', '}', '}']) ++ rest)).takeWhile w
      = k.data.takeWhile w := by
    rw [takeWhile_app_not _ _ _ _ hpc0]
    exact htw_tw
  by_cases hTW : k.data.takeWhile w = []
  · exact matchPH_ws_nil (by rw [h1, hTW])
  · have h2 : (k.data.takeWhile w
          ++ c0 :: ((r ++ ['}', '}', '}']) ++ rest)).dropWhile w
        = c0 :: ((r ++ ['}', '}', '}']) ++ rest) := by
      rw [dropWhile_app_not _ _ _ _ hpc0]
      rw [dropWhile_all_eq _ _ htw_all]
      rfl
    simp only [matchPH]
    rw [if_pos (show True ∧ True ∧ True from ⟨trivial, trivial, trivial⟩)]
    rw [h1, h2]
    rw [if_neg hTW]
    rw [matchClose_head _ (hk2 c0 hmem).2]

theorem matchPH_region_none {k : String} (hk1 : ∃ c ∈ k.data, w c = false)
    (hk2 : ∀ c ∈ k.data, c ≠ '{' ∧ c ≠ '}') (rest : List Char) :
    ∀ s1 s2 : List Char, phTok k = s1 ++ s2 → s2 ≠ [] → matchPH w (s2 ++ rest) = none := by
  have hkd : ∃ k0 kr, k.data = k0 :: kr := by
    obtain ⟨c, hc, _⟩ := hk1
    cases hd : k.data with
    | nil => rw [hd] at hc; simp at hc
    | cons k0 kr => exact ⟨k0, kr, rfl⟩
  obtain ⟨k0, kr, hk0⟩ := hkd
  have hk0ne : k0 ≠ '{' := (hk2 k0 (by rw [hk0]; simp)).1
  intro s1 s2 he hne
  match s1, he with
  | [], he =>
    have : s2 = phTok k := by rw [he]; rfl
    rw [this]
    exact region_head_none hk1 hk2 rest
  | [a], he =>
    have h2 : s2 = '{' :: '{' :: (k.data ++ ['}', '}', '}']) := by
      have h4 := congrArg List.tail he
      simp only [phTok, List.tail_cons, List.cons_append, List.nil_append] at h4
      exact h4.symm
    rw [h2, hk0]
    show matchPH w ('{' :: '{' :: k0 :: ((kr ++ ['}', '}', '}']) ++ rest)) = none
    exact matchPH_guard_neg _ (fun h => hk0ne h.2.2)
  | [a, b], he =>
    have h2 : s2 = '{' :: (k.data ++ ['}', '}', '}']) := by
      have h4 := congrArg (fun l => List.tail (List.tail l)) he
      simp only [phTok, List.tail_cons, List.cons_append, List.nil_append] at h4
      exact h4.symm
    rw [h2, hk0]
    cases kr with
    | nil =>
      show matchPH w ('{' :: k0 :: '}' :: (['}', '}'] ++ rest)) = none
      exact matchPH_guard_neg _ (fun h => hk0ne h.2.1)
    | cons k1 kr2 =>
      show matchPH w ('{' :: k0 :: k1 :: ((kr2 ++ ['}', '}', '}']) ++ rest)) = none
      exact matchPH_guard_neg _ (fun h => hk0ne h.2.1)
  | a :: b :: c :: u, he =>
    have h2 : k.data ++ ['}', '}', '}'] = u ++ s2 := by
      have := congrArg (fun l => List.tail (List.tail (List.tail l))) he
      simpa [phTok] using this
    cases s2 with
    | nil => exact absurd rfl hne
    | cons s0 s2t =>
      have hs0 : s0 ∈ k.data ++ ['}', '}', '}'] := by
        rw [h2]
        exact List.mem_append_right _ (List.mem_cons_self _ _)
      have hs0ne : s0 ≠ '{' := by
        rcases List.mem_append.mp hs0 with hm | hm
        · exact (hk2 s0 hm).1
        · intro hcontra
          rw [hcontra] at hm
          simp at hm
      exact matchPH_head _ hs0ne

theorem substChars_region_pass (subs : List (String × String)) {k : String}
    (hwb : w '{' = false) (hk1 : ∃ c ∈ k.data, w c = false)
    (hk2 : ∀ c ∈ k.data, c ≠ '{' ∧ c ≠ '}') {pre : List Char}
    (hpre : hasPH w pre = false) (rest : List Char) :
    substChars w subs ((pre ++ phTok k) ++ rest)
      = (pre ++ phTok k) ++ substChars w subs rest := by
  apply substChars_pass
  intro s1 s2 he hne
  rcases List.append_eq_append_iff.mp he with ⟨u, hs1, hu⟩ | ⟨u, hpre2, hs2⟩
  · exact matchPH_region_none hk1 hk2 rest u s2 hu hne
  · cases u with
    | nil =>
      have h3 : s2 = phTok k := by rw [hs2]; rfl
      rw [h3]
      exact region_head_none hk1 hk2 rest
    | cons u0 ur =>
      have hmu : matchPH w (u0 :: ur) = none :=
        hasPH_split s1 (u0 :: ur) (by rw [← hpre2]; exact hpre)
      rw [hs2]
      have h3 : ((u0 :: ur) ++ phTok k) ++ rest
          = (u0 :: ur) ++ '{' :: '{' :: '{' :: ((k.data ++ ['}', '}', '}']) ++ rest) := by
        simp [phTok, List.append_assoc]
      rw [h3]
      exact matchPH_app hwb (by simp) hmu _

theorem lookupSub_eraseKey (k : String) {key : String} (hne : key ≠ k) :
    ∀ m : List (String × String), lookupSub (eraseKey m k) key = lookupSub m key := by
  intro m
  induction m with
  | nil => rfl
  | cons p rest ih =>
    obtain ⟨k1, v1⟩ := p
    show lookupSub (List.filter _ ((k1, v1) :: rest)) key = _
    rw [List.filter_cons]
    by_cases h1 : k1 = k
    · rw [if_neg (by simp [h1])]
      show lookupSub (eraseKey rest k) key = _
      rw [ih]
      show _ = if key = k1 then some v1 else lookupSub rest key
      rw [if_neg (h1 ▸ hne)]
    · rw [if_pos (by simp [h1])]
      show (if key = k1 then some v1 else lookupSub (eraseKey rest k) key)
          = if key = k1 then some v1 else lookupSub rest key
      by_cases h2 : key = k1
      · rw [if_pos h2, if_pos h2]
      · rw [if_neg h2, if_neg h2]
        exact ih

theorem substAux_eraseKey (subs : List (String × String)) (k : String)
    (hk : ∃ c ∈ k.data, w c = false) :
    ∀ (f : Nat) (l : List Char), substAux w (eraseKey subs k) f l = substAux w subs f l := by
  intro f
  induction f with
  | zero => intro l; rfl
  | succ n ih =>
    intro l
    cases l with
    | nil => rfl
    | cons c cs =>
      cases hm : matchPH w (c :: cs) with
      | none =>
        simp only [substAux, hm]
        rw [ih]
      | some kt =>
        obtain ⟨key, tail⟩ := kt
        simp only [substAux, hm]
        have hkey := matchPH_key hm
        have hne : key ≠ k := by
          intro heq
          subst heq
          obtain ⟨c0, hc0, hw⟩ := hk
          have hall := List.all_eq_true.mp ((Bool.and_eq_true _ _).mp hkey).2 c0 hc0
          rw [hw] at hall
          exact absurd hall (by decide)
        rw [ih]
        have : replTok (eraseKey subs k) key = replTok subs key := by
          simp only [replTok, lookupSub_eraseKey k hne subs]
        rw [this]

theorem string_app_assoc (a b c : String) : a ++ b ++ c = a ++ (b ++ c) := by
  apply string_data_inj
  rw [string_data_app, string_data_app, string_data_app, string_data_app,
    List.append_assoc]

theorem splitName_dot (a b : String) (hb : '.' ∉ b.data) :
    splitName (a ++ "." ++ b) = (a, b) := by
  have hdata : (a ++ "." ++ b).data = a.data ++ '.' :: b.data := by
    rw [string_data_app, string_data_app]
    rw [show (".".data : List Char) = ['.'] from rfl]
    rw [List.append_assoc]
    rfl
  have hmem : '.' ∈ (a ++ "." ++ b).data := by
    rw [hdata]
    simp
  unfold splitName
  rw [if_pos hmem]
  unfold rsplitDot
  rw [hdata]
  have hrev : (a.data ++ '.' :: b.data).reverse
      = b.data.reverse ++ '.' :: a.data.reverse := by
    rw [List.reverse_append, List.reverse_cons, List.append_assoc]
    rfl
  rw [hrev]
  have hall : ∀ c ∈ b.data.reverse, (c != '.') = true := by
    intro c hc
    have hcb : c ∈ b.data := List.mem_reverse.mp hc
    simp only [bne_iff_ne, ne_eq]
    intro he
    exact hb (he ▸ hcb)
  have htk : (b.data.reverse ++ '.' :: a.data.reverse).takeWhile (fun c => c != '.')
      = b.data.reverse := by
    rw [takeWhile_app_not _ _ _ _ (by decide)]
    exact takeWhile_all_eq _ _ hall
  have hdr : (b.data.reverse ++ '.' :: a.data.reverse).dropWhile (fun c => c != '.')
      = '.' :: a.data.reverse := by
    rw [dropWhile_app_not _ _ _ _ (by decide)]
    rw [dropWhile_all_eq _ _ hall]
    rfl
  rw [htk, hdr]
  simp only [List.tail_cons, List.reverse_reverse]

theorem splitName_nodot (a : String) (ha : '.' ∉ a.data) :
    splitName a = (a, "KDA") := by
  unfold splitName
  rw [if_neg ha]

theorem modulePath_std (ns leaf : String) (hns : ns ≠ "")
    (hnse : ns.data.getLast? ≠ some '/') (hlh : leaf.data.head? ≠ some '/') :
    modulePath ns leaf = ns ++ "/" ++ leaf ++ ".pact" := by
  unfold modulePath joinPath
  have h1 : (leaf ++ ".pact").data.head? ≠ some '/' := by
    rw [string_data_app]
    cases hd : leaf.data with
    | nil => decide
    | cons c cs =>
      rw [hd] at hlh
      simpa using hlh
  rw [if_neg h1]
  rw [if_neg (by
    intro h
    rcases h with h | h
    · exact hns h
    · exact hnse h)]
  exact (string_app_assoc (ns ++ "/") leaf ".pact").symm

theorem head_ne_slash {l : List Char} (h : '/' ∉ l) : l.head? ≠ some '/' := by
  cases l with
  | nil => simp
  | cons c cs =>
    simp only [List.head?_cons, ne_eq, Option.some.injEq]
    intro hc
    exact h (hc ▸ List.mem_cons_self c cs)

theorem splitPath_dir (a b : String) (hb : '/' ∉ b.data) :
    splitPath (a ++ "/" ++ b) = (a ++ "/", b) := by
  have hdata : (a ++ "/" ++ b).data = a.data ++ '/' :: b.data := by
    rw [string_data_app, string_data_app]
    rw [show ("/".data : List Char) = ['/'] from rfl]
    rw [List.append_assoc]
    rfl
  unfold splitPath
  rw [hdata]
  have hrev : (a.data ++ '/' :: b.data).reverse
      = b.data.reverse ++ '/' :: a.data.reverse := by
    rw [List.reverse_append, List.reverse_cons, List.append_assoc]
    rfl
  rw [hrev]
  have hall : ∀ c ∈ b.data.reverse, (c != '/') = true := by
    intro c hc
    have hcb : c ∈ b.data := List.mem_reverse.mp hc
    simp only [bne_iff_ne, ne_eq]
    intro he
    exact hb (he ▸ hcb)
  have htk : (b.data.reverse ++ '/' :: a.data.reverse).takeWhile (fun c => c != '/')
      = b.data.reverse := by
    rw [takeWhile_app_not _ _ _ _ (by decide)]
    exact takeWhile_all_eq _ _ hall
  have hdr : (b.data.reverse ++ '/' :: a.data.reverse).dropWhile (fun c => c != '/')
      = '/' :: a.data.reverse := by
    rw [dropWhile_app_not _ _ _ _ (by decide)]
    rw [dropWhile_all_eq _ _ hall]
    rfl
  rw [htk, hdr]
  simp only [List.reverse_cons, List.reverse_reverse]
  refine Prod.ext ?_ ?_
  · exact string_data_inj rfl
  · exact string_mk_data b

theorem makedirs_idem (orc : FSOracle) (s s2 : FSState) (d : String)
    (h : makedirs orc s d = some s2) : makedirs orc s2 d = some s2 := by
  unfold makedirs at h ⊢
  by_cases h1 : s.dirs.contains d = true
  · rw [if_pos h1] at h
    obtain rfl : s = s2 := Option.some.inj h
    rw [if_pos h1]
  · rw [if_neg h1] at h
    by_cases h2 : d = "" ∨ orc.mkdirFails d = true
    · rw [if_pos h2] at h
      exact absurd h (by simp)
    · rw [if_neg h2] at h
      obtain rfl : (⟨d :: s.dirs, s.files⟩ : FSState) = s2 := Option.some.inj h
      rw [if_pos (by simp [List.contains_cons])]

theorem processModules_append (orc : FSOracle) (xs ys : List J) :
    ∀ st : FSState, processModules orc st (xs ++ ys) =
      if (processModules orc st xs).crashed then processModules orc st xs
      else ⟨(processModules orc (processModules orc st xs).st ys).st,
            (processModules orc st xs).evs
              ++ (processModules orc (processModules orc st xs).st ys).evs,
            (processModules orc (processModules orc st xs).st ys).crashed⟩ := by
  induction xs with
  | nil =>
    intro st
    simp [processModules]
  | cons m xs ih =>
    intro st
    show processModules orc st (m :: (xs ++ ys)) = _
    by_cases hc : (processModule orc st m).crashed = true
    · simp only [processModules, hc, if_pos, if_true]
    · simp only [processModules, hc, if_false, Bool.false_eq_true, if_neg,
        not_false_eq_true]
      rw [ih]
      by_cases hc2 : (processModules orc (processModule orc st m).st xs).crashed = true
      · simp [hc2]
      · simp [hc2, List.append_assoc]

theorem processEntries_append (orc : FSOracle) (xs ys : List J) :
    ∀ st : FSState, processEntries orc st (xs ++ ys) =
      if (processEntries orc st xs).crashed then processEntries orc st xs
      else ⟨(processEntries orc (processEntries orc st xs).st ys).st,
            (processEntries orc st xs).evs
              ++ (processEntries orc (processEntries orc st xs).st ys).evs,
            (processEntries orc (processEntries orc st xs).st ys).crashed⟩ := by
  induction xs with
  | nil =>
    intro st
    simp [processEntries]
  | cons e xs ih =>
    intro st
    show processEntries orc st (e :: (xs ++ ys)) = _
    by_cases hc : (processEntry orc st e).crashed = true
    · simp only [processEntries, hc, if_pos, if_true]
    · simp only [processEntries, hc, if_false, Bool.false_eq_true, if_neg,
        not_false_eq_true]
      rw [ih]
      by_cases hc2 : (processEntries orc (processEntry orc st e).st xs).crashed = true
      · simp [hc2]
      · simp [hc2, List.append_assoc]

/-- C1: for every template and substitution map, `substitute_placeholders`
leaves text containing no placeholder unchanged, and rewrites a template
of the form `pre ++ {{{k}}} ++ rest` (with `pre` placeholder-free and `k`
a valid key) to `pre` followed by the mapped value when `k` is mapped —
and by the untouched placeholder when it is not, without error — followed
by the recursively rewritten `rest`; so every occurrence of a mapped key
is replaced, however often it occurs, unmapped placeholders pass through,
and non-placeholder text is unchanged.  The statement is parametric in
the word-character classifier `w` and assumes only that braces are not
word characters, which holds of Python's Unicode-aware `\w`, so it covers
Unicode keys such as "café" as well. -/
theorem substitute_placeholders_spec (w : Char → Bool)
    (hwb : w '{' = false) (hwc : w '}' = false)
    (subs : List (String × String)) (pre k rest : String) :
    (hasPH w pre.data = false → substitute_placeholders w pre subs = pre) ∧
    (hasPH w pre.data = false → validKey w k = true →
      substitute_placeholders w (pre ++ String.mk (phTok k) ++ rest) subs =
        pre ++ (match lookupSub subs k with
          | some v => v
          | none => String.mk (phTok k)) ++ substitute_placeholders w rest subs) := by
  constructor
  · intro hpre
    apply string_data_inj
    show substChars w subs pre.data = pre.data
    have h2 := substChars_pass subs [] pre.data (fun s1 s2 he hne => by
      rw [List.append_nil]
      exact hasPH_split s1 s2 (by rw [← he]; exact hpre))
    rw [List.append_nil] at h2
    rw [substChars_nil, List.append_nil] at h2
    exact h2
  · intro hpre hk
    apply string_data_inj
    show substChars w subs (pre ++ String.mk (phTok k) ++ rest).data = _
    have hdata : (pre ++ String.mk (phTok k) ++ rest).data
        = pre.data ++ (phTok k ++ rest.data) := by
      rw [string_data_app, string_data_app, List.append_assoc]
    rw [hdata]
    have hcond : ∀ s1 s2 : List Char, pre.data = s1 ++ s2 → s2 ≠ [] →
        matchPH w (s2 ++ (phTok k ++ rest.data)) = none := by
      intro s1 s2 he hne
      have hm := hasPH_split s1 s2 (by rw [← he]; exact hpre)
      have hshape : s2 ++ (phTok k ++ rest.data)
          = s2 ++ '{' :: '{' :: '{' :: ((k.data ++ ['}', '}', '}']) ++ rest.data) := by
        simp [phTok, List.append_assoc]
      rw [hshape]
      exact matchPH_app hwb hne hm _
    rw [substChars_pass subs (phTok k ++ rest.data) pre.data hcond]
    rw [substChars_some subs (matchPH_ph hwc hk rest.data)]
    rw [string_data_app, string_data_app]
    rw [List.append_assoc]
    congr 1
    cases hl : lookupSub subs k with
    | some v => simp [replTok, hl]; rfl
    | none => simp [replTok, hl]; rfl

/-- Witness for `substitute_placeholders_spec` at a concrete template:
"a {{{chain}}} z" with the map sending "chain" to "7". -/
theorem substitute_placeholders_spec_inst :
    substitute_placeholders asciiWord ("a " ++ String.mk (phTok "chain") ++ " z")
        [("chain", "7")]
      = "a " ++ "7" ++ substitute_placeholders asciiWord " z" [("chain", "7")] :=
  (substitute_placeholders_spec asciiWord (by decide) (by decide)
    [("chain", "7")] "a " "chain" " z").2 (by decide) (by decide)

/-- C9 counterexample: the claim "a placeholder whose key contains a
non-word character passes through unchanged" fails when the key itself
contains braces: for the key `x}}}{{{y` the text `{{{` key `}}}` contains
the genuine placeholder `{{{x}}}`, which is substituted. -/
theorem nonword_key_cex :
    (∃ c ∈ (String.mk ['x', '}', '}', '}', '{', '{', '{', 'y']).data,
        asciiWord c = false) ∧
    substitute_placeholders asciiWord
        (String.mk (phTok (String.mk ['x', '}', '}', '}', '{', '{', '{', 'y'])))
        [("x", "V")]
      ≠ String.mk (phTok (String.mk ['x', '}', '}', '}', '{', '{', '{', 'y'])) := by
  constructor
  · exact ⟨'}', by decide, by decide⟩
  · decide

/-- C9 amended: the renderer only recognizes keys made of word characters
in the sense of the regex class `\w` — for Python on `str`, Unicode
alphanumerics and the underscore; the classifier `w` is a parameter and
only `w '{' = false` is assumed.  A candidate placeholder `{{{k}}}` whose
key contains a non-word character passes through unchanged provided the
key contains no brace (a key containing braces can re-divide into genuine
placeholders, see the counterexample); and for any key containing a
non-word character the map entry for that key is never consulted: erasing
it from the map never changes the output.  A key such as "my-key" is
non-word under every classifier agreeing with `\w` on ASCII, since the
hyphen is punctuation. -/
theorem nonword_key_spec (w : Char → Bool) (hwb : w '{' = false)
    (subs : List (String × String)) (pre k rest : String) (l : List Char) :
    ((∃ c ∈ k.data, w c = false) →
      (∀ c ∈ k.data, c ≠ '{' ∧ c ≠ '}') →
      hasPH w pre.data = false →
      substitute_placeholders w (pre ++ String.mk (phTok k) ++ rest) subs =
        pre ++ String.mk (phTok k) ++ substitute_placeholders w rest subs) ∧
    ((∃ c ∈ k.data, w c = false) →
      substChars w (eraseKey subs k) l = substChars w subs l) := by
  constructor
  · intro hk1 hk2 hpre
    apply string_data_inj
    show substChars w subs (pre ++ String.mk (phTok k) ++ rest).data = _
    have hdata : (pre ++ String.mk (phTok k) ++ rest).data
        = (pre.data ++ phTok k) ++ rest.data := by
      rw [string_data_app, string_data_app]
    rw [hdata]
    rw [substChars_region_pass subs hwb hk1 hk2 hpre rest.data]
    rfl
  · intro hk1
    show substAux w (eraseKey subs k) l.length l = substAux w subs l.length l
    exact substAux_eraseKey subs k hk1 l.length l

/-- Witness for `nonword_key_spec`: `{{{my-key}}}` passes through
unchanged even though "my-key" is mapped. -/
theorem nonword_key_spec_inst :
    substitute_placeholders asciiWord ("a" ++ String.mk (phTok "my-key") ++ "b")
        [("my-key", "V")]
      = "a" ++ String.mk (phTok "my-key")
          ++ substitute_placeholders asciiWord "b" [("my-key", "V")] :=
  (nonword_key_spec asciiWord (by decide) [("my-key", "V")] "a" "my-key" "b" []).1
    (by decide) (by decide) (by decide)

theorem processModules_nil (orc : FSOracle) (st : FSState) :
    processModules orc st [] = ⟨st, [], false⟩ := rfl

theorem processModules_cons_ok (orc : FSOracle) (st : FSState) (m : J)
    (ms : List J) (s2 : FSState) (evs2 : List Event)
    (h : processModule orc st m = ⟨s2, evs2, false⟩) :
    processModules orc st (m :: ms) =
      ⟨(processModules orc s2 ms).st, evs2 ++ (processModules orc s2 ms).evs,
       (processModules orc s2 ms).crashed⟩ := by
  simp only [processModules, h]
  simp

theorem truthy_str {s : String} (hs : s ≠ "") : truthy (J.str s) = true := by
  simp only [truthy, Bool.not_eq_true']
  cases hd : s.data with
  | nil => exact (hs (string_data_inj (show s.data = "".data from hd))).elim
  | cons x xs => rfl

theorem processModule_orc0_mk (st : FSState) (n c ns leaf : String)
    (hn : n ≠ "") (hc : c ≠ "") (hsplit : splitName n = (ns, leaf))
    (st2 : FSState) (hmk : makedirs orc0 st ns = some st2) :
    processModule orc0 st (mkModule n c) =
      ⟨⟨st2.dirs, (modulePath ns leaf, c) :: st2.files⟩,
       [Event.created (modulePath ns leaf) c], false⟩ := by
  have htn := truthy_str hn
  have htc := truthy_str hc
  show processModule orc0 st (J.obj [("name", J.str n), ("code", J.str c)]) = _
  simp only [processModule,
    show moduleField [("name", J.str n), ("code", J.str c)] "name" = J.str n from rfl,
    show moduleField [("name", J.str n), ("code", J.str c)] "code" = J.str c from rfl,
    htn, htc, Bool.and_self, if_true, hsplit, hmk]
  simp [writeFile, orc0]

theorem makedirs_orc0_mem (st : FSState) (ns : String)
    (hmem : st.dirs.contains ns = true) : makedirs orc0 st ns = some st := by
  unfold makedirs
  rw [if_pos hmem]

theorem makedirs_orc0_new (st : FSState) (ns : String) (hns : ns ≠ "")
    (hmem : st.dirs.contains ns = false) :
    makedirs orc0 st ns = some ⟨ns :: st.dirs, st.files⟩ := by
  unfold makedirs
  rw [if_neg (by simp only [hmem]; decide), if_neg (by simp [orc0, hns])]

/-- C2 counterexample: the module with name ".foo" and code "x" is
well-formed in the claim's sense (both fields present and non-empty), yet
the derived namespace is empty, `os.makedirs("")` fails, the module is
skipped with an error report, and no file at all is produced — in
particular none at "/foo.pact", the path the claim's formula
`<namespace>/<leaf>.pact` would give. -/
theorem parse_create_empty_namespace_cex :
    processModule orc0 ⟨[], []⟩ (mkModule ".foo" "x")
        = ⟨⟨[], []⟩, [Event.errMkdir ""], false⟩ ∧
    (processModule orc0 ⟨[], []⟩ (mkModule ".foo" "x")).st.files = [] := ⟨rfl, rfl⟩

/-- C2 amended: for every well-formed module (name and code present and
non-empty) whose derived namespace is non-empty and does not end with a
path separator, and whose derived leaf does not start with one, the
extractor splits the name on its last dot (full name and default leaf
"KDA" when there is no dot — third and fourth conjuncts), and exactly one
file `<namespace>/<leaf>.pact` holding the literal code is produced. -/
theorem processModule_wellformed_paths (st : FSState) (n c ns leaf : String)
    (hn : n ≠ "") (hc : c ≠ "") (hsplit : splitName n = (ns, leaf))
    (hns : ns ≠ "") (hnse : ns.data.getLast? ≠ some '/')
    (hlh : leaf.data.head? ≠ some '/') :
    processModule orc0 st (mkModule n c) =
      ⟨⟨if st.dirs.contains ns then st.dirs else ns :: st.dirs,
        (ns ++ "/" ++ leaf ++ ".pact", c) :: st.files⟩,
       [Event.created (ns ++ "/" ++ leaf ++ ".pact") c], false⟩ ∧
    lookupFile ⟨if st.dirs.contains ns then st.dirs else ns :: st.dirs,
        (ns ++ "/" ++ leaf ++ ".pact", c) :: st.files⟩
      (ns ++ "/" ++ leaf ++ ".pact") = some c ∧
    (∀ a b : String, '.' ∉ b.data → splitName (a ++ "." ++ b) = (a, b)) ∧
    (∀ a : String, '.' ∉ a.data → splitName a = (a, "KDA")) := by
  have hpath : modulePath ns leaf = ns ++ "/" ++ leaf ++ ".pact" :=
    modulePath_std ns leaf hns hnse hlh
  refine ⟨?_, ?_, splitName_dot, splitName_nodot⟩
  · by_cases hmem : st.dirs.contains ns = true
    · have hmain := processModule_orc0_mk st n c ns leaf hn hc hsplit st
        (makedirs_orc0_mem st ns hmem)
      rw [hpath] at hmain
      rw [hmain, if_pos hmem]
    · have hmem2 : st.dirs.contains ns = false := by
        cases hv : st.dirs.contains ns with
        | false => rfl
        | true => exact absurd hv hmem
      have hmain := processModule_orc0_mk st n c ns leaf hn hc hsplit
        ⟨ns :: st.dirs, st.files⟩ (makedirs_orc0_new st ns hns hmem2)
      rw [hpath] at hmain
      rw [hmain, if_neg hmem]
  · simp [lookupFile, lookupFilesAux]

/-- Witness for `processModule_wellformed_paths`: the module named
"ns.foo.Thing" with code "code" yields exactly the file
ns.foo/Thing.pact containing "code". -/
theorem processModule_wellformed_paths_inst :
    processModule orc0 ⟨[], []⟩ (mkModule "ns.foo.Thing" "code")
      = ⟨⟨["ns.foo"], [("ns.foo/Thing.pact", "code")]⟩,
         [Event.created "ns.foo/Thing.pact" "code"], false⟩ :=
  (processModule_wellformed_paths ⟨[], []⟩ "ns.foo.Thing" "code" "ns.foo" "Thing"
    (by decide) (by decide) rfl (by decide) (by decide) (by decide)).1

/-- C8 counterexample: two well-formed modules sharing the namespace "/x"
with the distinct leaf names "/x/y" (from name "/x./x/y") and "y" (from
name "/x.y") are both written to the single path "/x/y.pact" — the
second write shadows (overwrites) the first, against the claim that the
two writes never overwrite each other. -/
theorem same_namespace_overwrite_cex :
    splitName "/x./x/y" = ("/x", "/x/y") ∧
    splitName "/x.y" = ("/x", "y") ∧
    (processModules orc0 ⟨[], []⟩
        [mkModule "/x./x/y" "A", mkModule "/x.y" "B"]).st.files
      = [("/x/y.pact", "B"), ("/x/y.pact", "A")] ∧
    lookupFile (processModules orc0 ⟨[], []⟩
        [mkModule "/x./x/y" "A", mkModule "/x.y" "B"]).st "/x/y.pact"
      = some "B" := ⟨rfl, rfl, rfl, rfl⟩

/-- C8 amended: two well-formed modules sharing a non-empty namespace not
ending in a path separator, with distinct separator-free leaf names, are
written to two distinct files in that namespace directory without either
write overwriting the other, and `os.makedirs` with `exist_ok=True` is
idempotent: a second creation of an existing directory succeeds and
leaves the state unchanged (first conjunct).  The two output paths have
the same directory part `ns ++ "/"` and distinct separator-free final
segments (third to fifth conjuncts), so they name distinct files under
POSIX path resolution, not merely distinct raw strings; the first file's
content survives the second write (last conjunct). -/
theorem same_namespace_two_files (st : FSState) (ns l1 l2 c1 c2 n1 n2 : String)
    (h1 : splitName n1 = (ns, l1)) (h2 : splitName n2 = (ns, l2))
    (hn1 : n1 ≠ "") (hn2 : n2 ≠ "") (hc1 : c1 ≠ "") (hc2 : c2 ≠ "")
    (hns : ns ≠ "") (hnse : ns.data.getLast? ≠ some '/')
    (hl1 : '/' ∉ l1.data) (hl2 : '/' ∉ l2.data)
    (hll : l1 ≠ l2) :
    (∀ (orc : FSOracle) (s s2 : FSState) (d : String),
      makedirs orc s d = some s2 → makedirs orc s2 d = some s2) ∧
    processModules orc0 st [mkModule n1 c1, mkModule n2 c2] =
      ⟨⟨if st.dirs.contains ns then st.dirs else ns :: st.dirs,
        (ns ++ "/" ++ l2 ++ ".pact", c2)
          :: (ns ++ "/" ++ l1 ++ ".pact", c1) :: st.files⟩,
       [Event.created (ns ++ "/" ++ l1 ++ ".pact") c1,
        Event.created (ns ++ "/" ++ l2 ++ ".pact") c2], false⟩ ∧
    splitPath (ns ++ "/" ++ l1 ++ ".pact") = (ns ++ "/", l1 ++ ".pact") ∧
    splitPath (ns ++ "/" ++ l2 ++ ".pact") = (ns ++ "/", l2 ++ ".pact") ∧
    l1 ++ ".pact" ≠ l2 ++ ".pact" ∧
    ns ++ "/" ++ l1 ++ ".pact" ≠ ns ++ "/" ++ l2 ++ ".pact" ∧
    lookupFile ⟨if st.dirs.contains ns then st.dirs else ns :: st.dirs,
        (ns ++ "/" ++ l2 ++ ".pact", c2)
          :: (ns ++ "/" ++ l1 ++ ".pact", c1) :: st.files⟩
      (ns ++ "/" ++ l1 ++ ".pact") = some c1 := by
  have hpath1 : modulePath ns l1 = ns ++ "/" ++ l1 ++ ".pact" :=
    modulePath_std ns l1 hns hnse (head_ne_slash hl1)
  have hpath2 : modulePath ns l2 = ns ++ "/" ++ l2 ++ ".pact" :=
    modulePath_std ns l2 hns hnse (head_ne_slash hl2)
  have hsl1 : '/' ∉ (l1 ++ ".pact").data := by
    rw [string_data_app]
    intro hm
    rcases List.mem_append.mp hm with hm | hm
    · exact hl1 hm
    · exact absurd hm (by decide)
  have hsl2 : '/' ∉ (l2 ++ ".pact").data := by
    rw [string_data_app]
    intro hm
    rcases List.mem_append.mp hm with hm | hm
    · exact hl2 hm
    · exact absurd hm (by decide)
  have hsp1 : splitPath (ns ++ "/" ++ l1 ++ ".pact") = (ns ++ "/", l1 ++ ".pact") := by
    rw [string_app_assoc (ns ++ "/") l1 ".pact"]
    exact splitPath_dir ns (l1 ++ ".pact") hsl1
  have hsp2 : splitPath (ns ++ "/" ++ l2 ++ ".pact") = (ns ++ "/", l2 ++ ".pact") := by
    rw [string_app_assoc (ns ++ "/") l2 ".pact"]
    exact splitPath_dir ns (l2 ++ ".pact") hsl2
  have hleafne : l1 ++ ".pact" ≠ l2 ++ ".pact" := by
    intro he
    apply hll
    have hd := congrArg String.data he
    rw [string_data_app, string_data_app] at hd
    exact string_data_inj (List.append_cancel_right hd)
  have hne12 : ns ++ "/" ++ l1 ++ ".pact" ≠ ns ++ "/" ++ l2 ++ ".pact" := by
    intro he
    apply hll
    have hd := congrArg String.data he
    rw [string_data_app, string_data_app, string_data_app, string_data_app,
      string_data_app, string_data_app] at hd
    have hd3 := List.append_cancel_left (List.append_cancel_right hd)
    exact string_data_inj hd3
  refine ⟨makedirs_idem, ?_, hsp1, hsp2, hleafne, hne12, ?_⟩
  · by_cases hmem : st.dirs.contains ns = true
    · have hm1 := processModule_orc0_mk st n1 c1 ns l1 hn1 hc1 h1 st
        (makedirs_orc0_mem st ns hmem)
      rw [hpath1] at hm1
      have hm2 := processModule_orc0_mk
        ⟨st.dirs, (ns ++ "/" ++ l1 ++ ".pact", c1) :: st.files⟩ n2 c2 ns l2 hn2 hc2 h2
        ⟨st.dirs, (ns ++ "/" ++ l1 ++ ".pact", c1) :: st.files⟩
        (makedirs_orc0_mem _ ns hmem)
      rw [hpath2] at hm2
      rw [processModules_cons_ok orc0 st _ _ _ _ hm1,
        processModules_cons_ok orc0 _ _ _ _ _ hm2, processModules_nil,
        if_pos hmem]
      rfl
    · have hmem2 : st.dirs.contains ns = false := by
        cases hv : st.dirs.contains ns with
        | false => rfl
        | true => exact absurd hv hmem
      have hm1 := processModule_orc0_mk st n1 c1 ns l1 hn1 hc1 h1
        ⟨ns :: st.dirs, st.files⟩ (makedirs_orc0_new st ns hns hmem2)
      rw [hpath1] at hm1
      have hm2 := processModule_orc0_mk
        ⟨ns :: st.dirs, (ns ++ "/" ++ l1 ++ ".pact", c1) :: st.files⟩ n2 c2 ns l2
        hn2 hc2 h2 ⟨ns :: st.dirs, (ns ++ "/" ++ l1 ++ ".pact", c1) :: st.files⟩
        (makedirs_orc0_mem _ ns (by simp))
      rw [hpath2] at hm2
      rw [processModules_cons_ok orc0 st _ _ _ _ hm1,
        processModules_cons_ok orc0 _ _ _ _ _ hm2, processModules_nil,
        if_neg hmem]
      rfl
  · simp [lookupFile, lookupFilesAux, if_neg (Ne.symm hne12)]

/-- Witness for `same_namespace_two_files`: "ns.A" and "ns.B" with codes
"x" and "y" both land in the directory "ns" as distinct files. -/
theorem same_namespace_two_files_inst :
    processModules orc0 ⟨[], []⟩ [mkModule "ns.A" "x", mkModule "ns.B" "y"] =
      ⟨⟨["ns"], [("ns/B.pact", "y"), ("ns/A.pact", "x")]⟩,
       [Event.created "ns/A.pact" "x", Event.created "ns/B.pact" "y"], false⟩ :=
  (same_namespace_two_files ⟨[], []⟩ "ns" "A" "B" "x" "y" "ns.A" "ns.B"
    rfl rfl (by decide) (by decide) (by decide) (by decide) (by decide)
    (by decide) (by decide) (by decide) (by decide)).2.1

/-- C4: a module element whose name or code field is missing or empty is
skipped with a warning, no file is created for it (the filesystem state
is unchanged), and every sibling module in the same list is still
processed. -/
theorem module_missing_fields_skip (orc : FSOracle) (st : FSState)
    (flds : List (String × J)) (hb : badFields flds) (ms1 ms2 : List J) :
    processModule orc st (J.obj flds) = ⟨st, [Event.warnModuleFields], false⟩ ∧
    ((processModules orc st ms1).crashed = false →
      processModules orc st (ms1 ++ J.obj flds :: ms2) =
        ⟨(processModules orc (processModules orc st ms1).st ms2).st,
         (processModules orc st ms1).evs ++ Event.warnModuleFields ::
           (processModules orc (processModules orc st ms1).st ms2).evs,
         (processModules orc (processModules orc st ms1).st ms2).crashed⟩) := by
  have hskip : ∀ s : FSState, processModule orc s (J.obj flds)
      = ⟨s, [Event.warnModuleFields], false⟩ := by
    intro s
    have hguard : (truthy (moduleField flds "name")
        && truthy (moduleField flds "code")) = false := by
      rcases hb with h | h
      · have hname : truthy (moduleField flds "name") = false := by
          rcases h with h | h
          · rw [show moduleField flds "name" = J.null from by simp [moduleField, h]]
            rfl
          · rw [show moduleField flds "name" = J.str "" from by simp [moduleField, h]]
            decide
        rw [hname, Bool.false_and]
      · have hcode : truthy (moduleField flds "code") = false := by
          rcases h with h | h
          · rw [show moduleField flds "code" = J.null from by simp [moduleField, h]]
            rfl
          · rw [show moduleField flds "code" = J.str "" from by simp [moduleField, h]]
            decide
        rw [hcode, Bool.and_false]
    simp only [processModule, hguard]
    rfl
  refine ⟨hskip st, ?_⟩
  intro hc
  rw [processModules_append orc ms1 (J.obj flds :: ms2) st,
    if_neg (fun h => Bool.false_ne_true (hc ▸ h))]
  rw [processModules_cons_ok orc _ _ _ _ _ (hskip _)]
  simp

/-- Witness for `module_missing_fields_skip`: a module lacking the code
field is skipped with a warning and no file. -/
theorem module_missing_fields_skip_inst :
    processModule orc0 ⟨[], []⟩ (J.obj [("name", J.str "a")])
      = ⟨⟨[], []⟩, [Event.warnModuleFields], false⟩ :=
  (module_missing_fields_skip orc0 ⟨[], []⟩ [("name", J.str "a")]
    (Or.inr (Or.inl rfl)) [] []).1

theorem processEntries_cons_ok (orc : FSOracle) (st : FSState) (e : J)
    (es : List J) (s2 : FSState) (evs2 : List Event)
    (h : processEntry orc st e = ⟨s2, evs2, false⟩) :
    processEntries orc st (e :: es) =
      ⟨(processEntries orc s2 es).st, evs2 ++ (processEntries orc s2 es).evs,
       (processEntries orc s2 es).crashed⟩ := by
  simp only [processEntries, h]
  simp

/-- C5: an entry whose fixed nested path body.result.data has a missing
field is skipped with a warning, non-fatally, and processing continues
with the next entry; an entry whose resolved data value is not a
sequence is likewise skipped with a warning. -/
theorem entry_missing_path_skip (orc : FSOracle) (st : FSState) (entry : J)
    (es1 es2 : List J) :
    (bodyResultData entry = Except.error PyErr.keyError →
      processEntry orc st entry = ⟨st, [Event.warnMissingKey], false⟩) ∧
    (∀ j, bodyResultData entry = Except.ok j → isArr j = false →
      processEntry orc st entry = ⟨st, [Event.warnDataNotList], false⟩) ∧
    (bodyResultData entry = Except.error PyErr.keyError →
      (processEntries orc st es1).crashed = false →
      processEntries orc st (es1 ++ entry :: es2) =
        ⟨(processEntries orc (processEntries orc st es1).st es2).st,
         (processEntries orc st es1).evs ++ Event.warnMissingKey ::
           (processEntries orc (processEntries orc st es1).st es2).evs,
         (processEntries orc (processEntries orc st es1).st es2).crashed⟩) ∧
    (∀ j, bodyResultData entry = Except.ok j → isArr j = false →
      (processEntries orc st es1).crashed = false →
      processEntries orc st (es1 ++ entry :: es2) =
        ⟨(processEntries orc (processEntries orc st es1).st es2).st,
         (processEntries orc st es1).evs ++ Event.warnDataNotList ::
           (processEntries orc (processEntries orc st es1).st es2).evs,
         (processEntries orc (processEntries orc st es1).st es2).crashed⟩) := by
  have hskipKey : bodyResultData entry = Except.error PyErr.keyError →
      ∀ s : FSState, processEntry orc s entry = ⟨s, [Event.warnMissingKey], false⟩ := by
    intro h s
    simp only [processEntry, h]
  have hskipArr : ∀ j, bodyResultData entry = Except.ok j → isArr j = false →
      ∀ s : FSState, processEntry orc s entry = ⟨s, [Event.warnDataNotList], false⟩ := by
    intro j h ha s
    cases j with
    | arr xs => simp [isArr] at ha
    | null => simp only [processEntry, h]
    | bool b => simp only [processEntry, h]
    | str s3 => simp only [processEntry, h]
    | num m => simp only [processEntry, h]
    | obj fs => simp only [processEntry, h]
  refine ⟨fun h => hskipKey h st, fun j h ha => hskipArr j h ha st, ?_, ?_⟩
  · intro h hc
    rw [processEntries_append orc es1 (entry :: es2) st,
      if_neg (fun hx => Bool.false_ne_true (hc ▸ hx))]
    rw [processEntries_cons_ok orc _ _ _ _ _ (hskipKey h _)]
    simp
  · intro j h ha hc
    rw [processEntries_append orc es1 (entry :: es2) st,
      if_neg (fun hx => Bool.false_ne_true (hc ▸ hx))]
    rw [processEntries_cons_ok orc _ _ _ _ _ (hskipArr j h ha _)]
    simp

/-- Witness for `entry_missing_path_skip`: an entry without a "body"
field is skipped with a warning. -/
theorem entry_missing_path_skip_inst :
    processEntry orc0 ⟨[], []⟩ (J.obj [])
      = ⟨⟨[], []⟩, [Event.warnMissingKey], false⟩ :=
  (entry_missing_path_skip orc0 ⟨[], []⟩ (J.obj []) [] []).1 rfl

/-- C3: a response that parses as JSON but lacks the network URL as a
top-level key makes the run abort fatally with no events and the
filesystem untouched (no output files written); the same fatal abort
occurs when the value under the network-URL key is not a sequence; at
the level of `main` the exit code is 1 and the state is unchanged. -/
theorem parse_and_create_files_fatal (w : Char → Bool) (orc : FSOracle)
    (st : FSState) (d : J) (url : String) :
    (getField d url = none →
      parse_and_create_files orc st (some d) url = ⟨st, [], Status.fatal⟩) ∧
    (∀ v, getField d url = some v → isArr v = false →
      parse_and_create_files orc st (some d) url = ⟨st, [], Status.fatal⟩) ∧
    (∀ env : Env, env.localParsed = some d → env.networkUrl = url →
      getField d url = none →
      (mainRun w orc env st).exit = 1 ∧ (mainRun w orc env st).st = st) := by
  have h1 : getField d url = none →
      parse_and_create_files orc st (some d) url = ⟨st, [], Status.fatal⟩ := by
    intro h
    simp only [parse_and_create_files, h]
  have h2 : ∀ v, getField d url = some v → isArr v = false →
      parse_and_create_files orc st (some d) url = ⟨st, [], Status.fatal⟩ := by
    intro v h ha
    cases v with
    | arr xs => simp [isArr] at ha
    | null => simp only [parse_and_create_files, h]
    | bool b => simp only [parse_and_create_files, h]
    | str s3 => simp only [parse_and_create_files, h]
    | num m => simp only [parse_and_create_files, h]
    | obj fs => simp only [parse_and_create_files, h]
  refine ⟨h1, h2, ?_⟩
  intro env hp hu hg
  have hpc : parse_and_create_files orc st env.localParsed env.networkUrl
      = ⟨st, [], Status.fatal⟩ := by
    rw [hp, hu]
    exact h1 hg
  by_cases e1 : env.templateExists = false
  · simp only [mainRun, if_pos e1]
    simp [RunRes.exit]
  · cases e2 : env.templateContent with
    | none =>
      simp only [mainRun, if_neg e1, e2]
      simp [RunRes.exit]
    | some tpl =>
      simp only [mainRun, if_neg e1, e2, hpc]
      by_cases e3 : env.substWriteOk = false
      · rw [if_pos e3]
        exact ⟨rfl, rfl⟩
      · rw [if_neg e3]
        by_cases e4 : env.genExitCode ≠ 0
        · rw [if_pos e4]
          exact ⟨rfl, rfl⟩
        · rw [if_neg e4]
          by_cases e5 : env.genFileCreated = false
          · rw [if_pos e5]
            exact ⟨rfl, rfl⟩
          · rw [if_neg e5]
            by_cases e6 : env.localExitCode ≠ 0
            · rw [if_pos e6]
              exact ⟨rfl, rfl⟩
            · rw [if_neg e6]
              exact ⟨rfl, rfl⟩

/-- Witness for `parse_and_create_files_fatal`: an object without the
network-URL key is fatal. -/
theorem parse_and_create_files_fatal_inst :
    parse_and_create_files orc0 ⟨[], []⟩ (some (J.obj [])) "u"
      = ⟨⟨[], []⟩, [], Status.fatal⟩ :=
  (parse_and_create_files_fatal asciiWord orc0 ⟨[], []⟩ (J.obj []) "u").1 rfl

/-- C7: for a module that passes field validation, a directory-creation
failure is reported and only that module is skipped, a file-write failure
is likewise reported and non-fatal, and in every case processing of the
following modules continues — neither failure ever aborts the run. -/
theorem module_io_failures_nonfatal (orc : FSOracle) (st : FSState)
    (flds : List (String × J)) (n c : String)
    (hnf : lookupField flds "name" = some (J.str n)) (hn : n ≠ "")
    (hcf : lookupField flds "code" = some (J.str c)) (hc : c ≠ "") :
    (makedirs orc st (splitName n).1 = none →
      processModule orc st (J.obj flds)
        = ⟨st, [Event.errMkdir (splitName n).1], false⟩) ∧
    (∀ st1, makedirs orc st (splitName n).1 = some st1 →
      orc.writeFails (modulePath (splitName n).1 (splitName n).2) = true →
      processModule orc st (J.obj flds)
        = ⟨st1, [Event.errWrite (modulePath (splitName n).1 (splitName n).2)],
           false⟩) ∧
    ((processModule orc st (J.obj flds)).crashed = false ∧
      ∀ ms : List J, processModules orc st (J.obj flds :: ms) =
        ⟨(processModules orc (processModule orc st (J.obj flds)).st ms).st,
         (processModule orc st (J.obj flds)).evs
           ++ (processModules orc (processModule orc st (J.obj flds)).st ms).evs,
         (processModules orc (processModule orc st (J.obj flds)).st ms).crashed⟩) := by
  have hmn : moduleField flds "name" = J.str n := by simp [moduleField, hnf]
  have hmc : moduleField flds "code" = J.str c := by simp [moduleField, hcf]
  have htn := truthy_str hn
  have htc := truthy_str hc
  refine ⟨?_, ?_, ?_⟩
  · intro hmk
    simp only [processModule, hmn, hmc, htn, htc, Bool.and_self, if_true, hmk]
  · intro st1 hmk hw
    have hwf : writeFile orc st1 (modulePath (splitName n).1 (splitName n).2) c
        = none := by
      unfold writeFile
      rw [if_pos hw]
    simp only [processModule, hmn, hmc, htn, htc, Bool.and_self, if_true, hmk, hwf]
  · have hcr : (processModule orc st (J.obj flds)).crashed = false := by
      simp only [processModule, hmn, hmc, htn, htc, Bool.and_self, if_true]
      split
      · rfl
      · split
        · rfl
        · rfl
    refine ⟨hcr, ?_⟩
    intro ms
    simp only [processModules]
    rw [if_neg (fun h => Bool.false_ne_true (hcr ▸ h))]

/-- Witness for `module_io_failures_nonfatal`: under an oracle whose
directory creations all fail, the module "a.b" is skipped with an error
and nothing else changes. -/
theorem module_io_failures_nonfatal_inst :
    processModule ⟨fun _ => true, fun _ => false⟩ ⟨[], []⟩ (mkModule "a.b" "x")
      = ⟨⟨[], []⟩, [Event.errMkdir "a"], false⟩ :=
  (module_io_failures_nonfatal ⟨fun _ => true, fun _ => false⟩ ⟨[], []⟩
    [("name", J.str "a.b"), ("code", J.str "x")] "a.b" "x" rfl (by decide)
    rfl (by decide)).1 rfl

theorem mainRun_status_ok (w : Char → Bool) (orc : FSOracle) (env : Env)
    (st : FSState) :
    (mainRun w orc env st).status = Status.ok ↔
      (allOk env ∧ (parse_and_create_files orc st env.localParsed
        env.networkUrl).status = Status.ok) := by
  unfold allOk
  by_cases e1 : env.templateExists = false
  · simp only [mainRun, if_pos e1]
    simp [e1]
  · have e1b : env.templateExists = true := by
      cases hv : env.templateExists with
      | true => rfl
      | false => exact absurd hv e1
    cases e2 : env.templateContent with
    | none =>
      simp only [mainRun, if_neg e1, e2]
      simp [e2]
    | some tpl =>
      simp only [mainRun, if_neg e1, e2]
      by_cases e3 : env.substWriteOk = false
      · rw [if_pos e3]
        simp [e3]
      · rw [if_neg e3]
        have e3b : env.substWriteOk = true := by
          cases hv : env.substWriteOk with
          | true => rfl
          | false => exact absurd hv e3
        by_cases e4 : env.genExitCode ≠ 0
        · rw [if_pos e4]
          simp [e4]
        · rw [if_neg e4]
          have e4b : env.genExitCode = 0 := not_ne_iff.mp e4
          by_cases e5 : env.genFileCreated = false
          · rw [if_pos e5]
            simp [e5]
          · rw [if_neg e5]
            have e5b : env.genFileCreated = true := by
              cases hv : env.genFileCreated with
              | true => rfl
              | false => exact absurd hv e5
            by_cases e6 : env.localExitCode ≠ 0
            · rw [if_pos e6]
              simp [e6]
            · rw [if_neg e6]
              have e6b : env.localExitCode = 0 := not_ne_iff.mp e6
              cases e7 : (parse_and_create_files orc st env.localParsed
                  env.networkUrl).status with
              | ok => simp [e1b, e2, e3b, e4b, e5b, e6b, e7]
              | fatal => simp [e7]
              | crashed => simp [e7]

/-- C6: the run exits 0 exactly when every fatal gate passes — template
present and readable, substituted file writable, `kda gen` exits 0 and
its output file exists, `kda local` exits 0 — and the response parsing
completes normally; otherwise (including nonzero `kda gen` exit, missing
generated file, and unparsable JSON) it exits 1, and 0 and 1 are the only
exit codes. -/
theorem mainRun_exit_codes (w : Char → Bool) (orc : FSOracle) (env : Env)
    (st : FSState) :
    ((mainRun w orc env st).exit = 0 ↔
      (allOk env ∧ (parse_and_create_files orc st env.localParsed
        env.networkUrl).status = Status.ok)) ∧
    ((mainRun w orc env st).exit = 0 ∨ (mainRun w orc env st).exit = 1) ∧
    (env.genExitCode ≠ 0 → (mainRun w orc env st).exit = 1) ∧
    (env.genFileCreated = false → (mainRun w orc env st).exit = 1) ∧
    (env.localParsed = none → (mainRun w orc env st).exit = 1) := by
  have hiff0 : (mainRun w orc env st).exit = 0 ↔
      (mainRun w orc env st).status = Status.ok := by
    unfold RunRes.exit
    cases h : (mainRun w orc env st).status <;> simp [h]
  have hiff := hiff0.trans (mainRun_status_ok w orc env st)
  have h01 : (mainRun w orc env st).exit = 0 ∨ (mainRun w orc env st).exit = 1 := by
    unfold RunRes.exit
    cases h : (mainRun w orc env st).status <;> simp [h]
  refine ⟨hiff, h01, ?_, ?_, ?_⟩
  · intro hg
    rcases h01 with h0 | h1
    · exact absurd (hiff.mp h0).1.2.2.2.1 hg
    · exact h1
  · intro hg
    rcases h01 with h0 | h1
    · have hgf := (hiff.mp h0).1.2.2.2.2.1
      rw [hg] at hgf
      exact absurd hgf (by decide)
    · exact h1
  · intro hp
    rcases h01 with h0 | h1
    · have hps := (hiff.mp h0).2
      rw [hp] at hps
      simp [parse_and_create_files] at hps
    · exact h1

/-- Witness for `mainRun_exit_codes`: a run whose tool output fails to
parse as JSON exits 1. -/
theorem mainRun_exit_codes_inst :
    (mainRun asciiWord orc0 ⟨true, some "t", true, "0", "n", "u", 0, true, 0,
      none, true, true⟩ ⟨[], []⟩).exit = 1 :=
  (mainRun_exit_codes asciiWord orc0
    ⟨true, some "t", true, "0", "n", "u", 0, true, 0, none, true, true⟩
    ⟨[], []⟩).2.2.2.2 rfl

/-- C10: the two temp-file removals share one `try`/`except`: when
removing the generated JSON file fails, the substituted template file is
not removed at all, exactly one cleanup warning is emitted, and the exit
status stays 0. -/
theorem cleanup_single_handler (w : Char → Bool) (orc : FSOracle) (env : Env)
    (st : FSState) :
    (env.removeJsonOk = false → cleanupEvents env = [Event.warnCleanup]) ∧
    (∀ tpl, env.removeJsonOk = false → env.templateExists = true →
      env.templateContent = some tpl → env.substWriteOk = true →
      env.genExitCode = 0 → env.genFileCreated = true → env.localExitCode = 0 →
      (parse_and_create_files orc st env.localParsed env.networkUrl).status
        = Status.ok →
      mainRun w orc env st =
        ⟨(parse_and_create_files orc st env.localParsed env.networkUrl).st,
         Event.substWritten (substitute_placeholders w tpl
             [("chain", env.chain), ("namespace", env.nsArg)])
           :: ((parse_and_create_files orc st env.localParsed env.networkUrl).evs
             ++ [Event.warnCleanup]),
         Status.ok⟩) := by
  have hclean : env.removeJsonOk = false → cleanupEvents env = [Event.warnCleanup] := by
    intro h
    unfold cleanupEvents
    rw [if_pos h]
  refine ⟨hclean, ?_⟩
  intro tpl hrj hte htc hsw hge hgf hle hps
  simp only [mainRun, htc]
  rw [if_neg (by rw [hte]; decide),
    if_neg (by rw [hsw]; decide),
    if_neg (by rw [hge]; decide),
    if_neg (by rw [hgf]; decide),
    if_neg (by rw [hle]; decide)]
  simp only [hps, hclean hrj]
  simp

/-- Witness for `cleanup_single_handler` on a run whose JSON temp-file
removal fails: one cleanup warning, nothing else removed, exit ok. -/
theorem cleanup_single_handler_inst :
    mainRun asciiWord orc0 ⟨true, some "t", true, "0", "n", "u", 0, true, 0,
        some (J.obj [("u", J.arr [])]), false, true⟩ ⟨[], []⟩ =
      ⟨⟨[], []⟩, [Event.substWritten "t", Event.warnCleanup], Status.ok⟩ :=
  (cleanup_single_handler asciiWord orc0
    ⟨true, some "t", true, "0", "n", "u", 0, true, 0,
      some (J.obj [("u", J.arr [])]), false, true⟩ ⟨[], []⟩).2 "t"
    rfl rfl rfl rfl rfl rfl rfl rfl

end KdaFetch
